import Mathlib

/-!
# Vortex benchmark harness (`Vortex/Benchmarks.cpp`)

A shallow embedding of the benchmark module of Vortex sort: the key generator
`WriterLCG`, the order checker `ConsumerChecker`, and the arithmetic and loop
structure of `Benchmark<ItemType>::Run`. The sort engine that `Run` calls is
not part of that file; `Run` takes it as a parameter, and a model of it that
follows the specification is given separately.

Conventions.

* `uint64_t` values are natural numbers; every operation that can wrap is
  followed by `u64` (reduction modulo `2 ^ 64`).
* `ItemType` is one of `uint8_t`, `uint16_t`, `uint32_t`, `uint64_t`; it is
  represented by `sz = sizeof(ItemType)` (1, 2, 4 or 8), and the cast
  `(ItemType) v` is reduction modulo `2 ^ (8 * sz)`.
* A pointer `ItemType* p` is a map from index to stored item (`Buf`), so that
  stores past the caller's `len` can be observed.
* A `for` loop whose termination depends on the input is a function with a
  fuel argument that returns `none` when the fuel runs out.
-/

namespace Vortex

/-- Reduction of a natural number to the range of `uint64_t`. -/
def u64 (n : Nat) : Nat := n % 2 ^ 64

/-- Memory reached through an item pointer: index to stored item. -/
abbrev Buf := Nat → Nat

/-- The store `p[i] = v`. -/
def Buf.write (p : Buf) (i v : Nat) : Buf := fun j => if j = i then v else p j

/-- The cast `(ItemType) v` for an item type of `sz` bytes. -/
def castItem (sz v : Nat) : Nat := v % 2 ^ (8 * sz)

/-! ## WriterLCG -/

/-- Line 31: `uint64_t a = 6364136223846793005`. -/
def lcgA : Nat := 6364136223846793005

/-- Line 32: `uint64_t c = 1442695040888963407`. -/
def lcgC : Nat := 1442695040888963407

/-- Lines 35-38: the update `x = x * a + c` in `uint64_t` arithmetic. -/
def lcgStep (x : Nat) : Nat := u64 (u64 (x * lcgA) + lcgC)

/-- Line 33: `uint64_t upper = 64 - sizeof(ItemType) * 8`. -/
def upperShift (sz : Nat) : Nat := u64 (64 + 2 ^ 64 - u64 (sz * 8))

/-- Lines 39-42: the stored key `(ItemType)(x >> upper)`. -/
def lcgKey (sz x : Nat) : Nat := castItem sz (x >>> upperShift sz)

/-- The variables `WriterLCG` updates: the memory behind `p`, the four
generator states passed by reference, and (as a ghost variable) the indices
stored to, in program order. -/
structure LCGState where
  p : Buf
  x : Nat
  y : Nat
  z : Nat
  w : Nat
  log : List Nat

/-- Lines 34-43: the loop `for (i = 0; i < len; i += 4)`, entered with counter
`i`. Each round updates the four states and stores four keys; no round loads
from `p`. `none` means the fuel ran out before the loop condition failed. -/
def WriterLCG_loop (sz len : Nat) : Nat → Nat → LCGState → Option LCGState
  | 0, _, _ => none
  | fuel + 1, i, s =>
    if i < len then
      let x := lcgStep s.x
      let y := lcgStep s.y
      let z := lcgStep s.z
      let w := lcgStep s.w
      let p0 := s.p.write i (lcgKey sz x)
      let p1 := p0.write (u64 (i + 1)) (lcgKey sz y)
      let p2 := p1.write (u64 (i + 2)) (lcgKey sz z)
      let p3 := p2.write (u64 (i + 3)) (lcgKey sz w)
      WriterLCG_loop sz len fuel (u64 (i + 4))
        { p := p3, x := x, y := y, z := z, w := w,
          log := s.log ++ [i, u64 (i + 1), u64 (i + 2), u64 (i + 3)] }
    else some s

/-- Lines 28-44: `WriterLCG<ItemType>(p, len, x, y, z, w)`. -/
def WriterLCG (sz : Nat) (p : Buf) (len x y z w fuel : Nat) : Option LCGState :=
  WriterLCG_loop sz len fuel 0 { p := p, x := x, y := y, z := z, w := w, log := [] }

/-! ## ConsumerChecker -/

/-- Lines 50-56: the loop `for (j = 1; j < len; j++)` with the running
`failed` counter and `prev`; the load `uint64_t cur = p[j]` widens the item. -/
def ConsumerChecker_loop (p : Buf) (len : Nat) : Nat → Nat → Nat → Nat → Option Nat
  | 0, _, _, _ => none
  | fuel + 1, j, failed, prev =>
    if j < len then
      let cur := u64 (p j)
      let failed1 := if prev > cur then u64 (failed + 1) else failed
      ConsumerChecker_loop p len fuel (u64 (j + 1)) failed1 cur
    else some failed

/-- Lines 47-58: `ConsumerChecker(p, len)`; the result is the pair printed as
"unsorted keys" and "processed keys". -/
def ConsumerChecker (p : Buf) (len fuel : Nat) : Option (Nat × Nat) :=
  (ConsumerChecker_loop p len fuel 1 0 (u64 (p 0))).map (fun failed => (failed, len))

/-- The number of descents of `p` on `[0, len)`: positions `j` in `[1, len)`
with `p[j-1] > p[j]`. -/
def descents (p : Buf) (len : Nat) : Nat :=
  ((Finset.Ico 1 len).filter (fun j => p (j - 1) > p j)).card

/-! ## Closed forms used to state the properties of WriterLCG -/

/-- The generator step as the usual formula, `f(s) = (a * s + c) mod 2 ^ 64`. -/
def lcgF (s : Nat) : Nat := (6364136223846793005 * s + 1442695040888963407) % 2 ^ 64

/-- The inverse of `lcgF` on 64-bit states: `13877824140714322085` is the
inverse of the multiplier modulo `2 ^ 64`. -/
def lcgInv (t : Nat) : Nat :=
  (13877824140714322085 * (t + (2 ^ 64 - 1442695040888963407))) % 2 ^ 64

/-- The seed feeding residue class `r` of the indices: `x, y, z, w` for
`r = 0, 1, 2, 3`. -/
def seedOf (x y z w : Nat) (r : Nat) : Nat :=
  if r = 0 then x else if r = 1 then y else if r = 2 then z else w

/-- The state reached after `m` rounds of the loop of `WriterLCG` started on
memory `p` with seeds `x y z w`, in closed form. -/
def writerResult (sz : Nat) (p : Buf) (x y z w m : Nat) : LCGState :=
  { p := fun j => if j < 4 * m then lcgKey sz (lcgStep^[j / 4 + 1] (seedOf x y z w (j % 4)))
                  else p j,
    x := lcgStep^[m] x,
    y := lcgStep^[m] y,
    z := lcgStep^[m] z,
    w := lcgStep^[m] w,
    log := List.range (4 * m) }

/-! ## Benchmark<ItemType>::Run -/

/-- Line 68: `uint64_t GB = 1`. -/
def GB : Nat := 1

/-- Line 70: `itemsPerSort = GB * (1LLU << 30) / sizeof(ItemType)`. -/
def itemsPerSort (sz : Nat) : Nat := u64 (u64 (GB * u64 (1 <<< 30)) / sz)

/-- Line 71: `memory = itemsPerSort * sizeof(ItemType)`. -/
def memory (sz : Nat) : Nat := u64 (itemsPerSort sz * sz)

/-- Line 72: `uint64_t blockSizePower = 20`. -/
def blockSizePower : Nat := 20

/-- Line 97: `memUsed = (double)(blockCount << blockSizePower)`; the shift is
a `uint64_t` shift, the conversion is taken as exact. -/
def memUsed (blockCount bsp : Nat) : ℚ := ((u64 (blockCount <<< bsp) : Nat) : ℚ)

/-- Line 98: `memIdeal = (double)itemsPerSort * sizeof(ItemType)`, taken as
exact. -/
def memIdeal (n sz : Nat) : ℚ := (n : ℚ) * (sz : ℚ)

/-- Line 100: the printed overhead `(memUsed / memIdeal - 1) * 100`, as an
expression of the block count, the block size power, the item count and the
item size, in exact rational arithmetic. -/
def overheadOf (blockCount bsp n sz : Nat) : ℚ :=
  (memUsed blockCount bsp / memIdeal n sz - 1) * 100

/-- The overhead printed by `Run` for an item type of `sz` bytes when the
pool's block count is `blockCount`. -/
def overhead (sz blockCount : Nat) : ℚ :=
  overheadOf blockCount blockSizePower (itemsPerSort sz) sz

/-- The memory-overhead metric as the specification writes it,
`(blockCount × blockSize) / (n × itemSize) − 1`. -/
def specOverheadMetric (blockCount blockSize n itemSize : Nat) : ℚ :=
  ((blockCount : ℚ) * (blockSize : ℚ)) / ((n : ℚ) * (itemSize : ℚ)) - 1

/-- Modelled from the spec: the pool capacity formula of the data model,
`ceil(itemsPerSort × sizeof(item) / blockSize)` blocks; the constructor of
`VortexSort` that computes it is not among the sources. -/
def poolCapacity (n sz blockSize : Nat) : Nat := (n * sz + blockSize - 1) / blockSize

/-- Modelled from the spec: the failures a call of `Sort` can report
(section 7); the engine's code is not among the sources. -/
inductive SortError where
  | AllocationFailure
  | InvalidConfiguration
  deriving DecidableEq

/-- Modelled from the spec: the configuration of a `VortexSort` instance
(section 3): the item size in bytes, `itemsPerSort`, `blockSizePower`, the
fixed radix digit width and the base-case threshold. The class is not among
the sources. -/
structure SortConfig where
  itemSize : Nat
  itemsPerSort : Nat
  blockSizePower : Nat
  digitBits : Nat
  threshold : Nat

/-- Modelled from the spec: the key width in bits of the missing engine's item
type. -/
def SortConfig.keyBits (cfg : SortConfig) : Nat := 8 * cfg.itemSize

/-- Modelled from the spec: the bound `⌈keyBits / digitBits⌉` on the recursion
depth of the missing `VortexSort` (section 4.4). -/
def SortConfig.maxDepth (cfg : SortConfig) : Nat :=
  (cfg.keyBits + cfg.digitBits - 1) / cfg.digitBits

/-- Modelled from the spec: the number of key bits not yet consumed when the
missing partitioning pass runs at recursion depth `level`. -/
def SortConfig.bitsLeft (cfg : SortConfig) (level : Nat) : Nat :=
  cfg.keyBits - level * cfg.digitBits

/-- Modelled from the spec: the bit width of the digit of the missing
partitioning pass at depth `level`, at most what is left of the key. -/
def SortConfig.digitWidth (cfg : SortConfig) (level : Nat) : Nat :=
  min cfg.digitBits (cfg.bitsLeft level)

/-- Modelled from the spec: `nBuckets[level]`, the fan-out of the missing
`VortexSort` at depth `level`. -/
def SortConfig.nBuckets (cfg : SortConfig) (level : Nat) : Nat :=
  2 ^ cfg.digitWidth level

/-- Modelled from the spec: the digit of a key for the missing partitioning
pass at depth `level`, "extracted from the top unconsumed bits of the key"
(section 4.3). -/
def SortConfig.digitAt (cfg : SortConfig) (level key : Nat) : Nat :=
  (key >>> (cfg.bitsLeft level - cfg.digitWidth level)) % cfg.nBuckets level

/-- Modelled from the spec: how many items one block of the missing
`BlockPool` holds. -/
def SortConfig.itemsPerBlock (cfg : SortConfig) : Nat :=
  2 ^ cfg.blockSizePower / cfg.itemSize

/-- Modelled from the spec: the missing `BlockPool` (section 3), reduced to
its capacity in blocks and its live counter `blockCount`. -/
structure BlockPool where
  capacity : Nat
  blockCount : Nat

/-- Modelled from the spec: `Acquire(count)` of the missing `BlockPool`
(section 4.1), which fails with `AllocationFailure` when the reserved
capacity is exhausted. -/
def BlockPool.Acquire (bp : BlockPool) (count : Nat) : Except SortError BlockPool :=
  if bp.blockCount + count ≤ bp.capacity then
    Except.ok { bp with blockCount := bp.blockCount + count }
  else Except.error SortError.AllocationFailure

/-- Modelled from the spec: `Release(chain)` of the missing `BlockPool`
(section 4.1), for a chain of `count` blocks. -/
def BlockPool.Release (bp : BlockPool) (count : Nat) : BlockPool :=
  { bp with blockCount := bp.blockCount - count }

/-- Modelled from the spec: the missing `Bucket` (section 3), a stream with
its items in append order and the number of blocks in its chain. -/
structure Bucket where
  items : List Nat
  blocks : Nat

/-- Modelled from the spec: `Append(item)` of the missing `Stream` (section
4.2): "if the current block is full, the Stream transparently acquires an
additional block from its owning pool and continues". -/
def Bucket.Append (cfg : SortConfig) (pool : BlockPool) (b : Bucket) (item : Nat) :
    Except SortError (Bucket × BlockPool) :=
  if b.items.length = b.blocks * cfg.itemsPerBlock then
    match pool.Acquire 1 with
    | Except.error e => Except.error e
    | Except.ok pool1 => Except.ok ({ items := b.items ++ [item], blocks := b.blocks + 1 }, pool1)
  else Except.ok ({ b with items := b.items ++ [item] }, pool)

/-- Modelled from the spec: the missing partitioning pass (section 4.3), a
single sequential scan that appends every item to the bucket of its digit;
`bs` maps a digit value to its bucket. -/
def partitionPass (cfg : SortConfig) (digit : Nat → Nat) :
    List Nat → (Nat → Bucket) → BlockPool → Except SortError ((Nat → Bucket) × BlockPool)
  | [], bs, pool => Except.ok (bs, pool)
  | item :: rest, bs, pool =>
    match (bs (digit item)).Append cfg pool item with
    | Except.error e => Except.error e
    | Except.ok (b, pool1) =>
      partitionPass cfg digit rest (fun j => if j = digit item then b else bs j) pool1

/-- Modelled from the spec: steps 2-4 of the missing `Sort` (section 4.4)
over the `count` buckets from digit value `j` on: each bucket is sorted by
`sortOne`, written to the output after the buckets of lower range, and its
blocks are released once it is flushed. -/
def flushBuckets (sortOne : BlockPool → List Nat → Except SortError (List Nat × BlockPool))
    (bs : Nat → Bucket) : Nat → Nat → BlockPool → Except SortError (List Nat × BlockPool)
  | 0, _, pool => Except.ok ([], pool)
  | count + 1, j, pool =>
    match sortOne pool (bs j).items with
    | Except.error e => Except.error e
    | Except.ok (out, pool1) =>
      match flushBuckets sortOne bs count (j + 1) (pool1.Release (bs j).blocks) with
      | Except.error e => Except.error e
      | Except.ok (outs, pool2) => Except.ok (out ++ outs, pool2)

/-- Modelled from the spec: the recursion of the missing `Sort` (section 4.4)
on one bucket at depth `level` with `depthLeft` levels of recursion left: a
bucket at or below the threshold, or met when the depth is exhausted, is
sorted by insertion sort; a larger one is partitioned by its next digit and
its child buckets are sorted and concatenated in ascending range order. -/
def sortBucket (cfg : SortConfig) :
    Nat → Nat → BlockPool → List Nat → Except SortError (List Nat × BlockPool)
  | 0, _, pool, items => Except.ok (items.insertionSort (· ≤ ·), pool)
  | depthLeft + 1, level, pool, items =>
    if items.length ≤ cfg.threshold then Except.ok (items.insertionSort (· ≤ ·), pool)
    else
      match partitionPass cfg (cfg.digitAt level) items
          (fun _ => { items := [], blocks := 0 }) pool with
      | Except.error e => Except.error e
      | Except.ok (bs, pool1) =>
        flushBuckets (sortBucket cfg depthLeft (level + 1)) bs (cfg.nBuckets level) 0 pool1

/-- Modelled from the spec: `Sort(inputBuf, outputBuf, n)` of the missing
`VortexSort` (sections 4.4, 6 and 7). The result is the contents of
`outputBuf` and the pool after the call; `outputBuf` may be `inputBuf`. A
block too small for one item, or `itemsPerSort = 0` with `n ≠ 0`, is an
`InvalidConfiguration`; `n = 0` returns at once and leaves the output
untouched. -/
def VortexSort_Sort (cfg : SortConfig) (pool : BlockPool) (inputBuf outputBuf : List Nat) (n : Nat) :
    Except SortError (List Nat × BlockPool) :=
  if cfg.itemsPerBlock = 0 then Except.error SortError.InvalidConfiguration
  else if cfg.itemsPerSort = 0 ∧ n ≠ 0 then Except.error SortError.InvalidConfiguration
  else if n = 0 then Except.ok (outputBuf, pool)
  else
    match sortBucket cfg cfg.maxDepth 0 pool (inputBuf.take n) with
    | Except.error e => Except.error e
    | Except.ok (out, pool1) => Except.ok (out ++ outputBuf.drop n, pool1)

/-! # Theorems -/

/-! ## Properties of ConsumerChecker -/

theorem u64_of_lt {n : Nat} (h : n < 2 ^ 64) : u64 n = n := Nat.mod_eq_of_lt h

theorem descents_succ (p : Buf) (j : Nat) (hj : 1 ≤ j) :
    descents p (j + 1) = descents p j + (if p (j - 1) > p j then 1 else 0) := by
  unfold descents
  have hIco : Finset.Ico 1 (j + 1) = insert j (Finset.Ico 1 j) := by
    ext a
    simp only [Finset.mem_Ico, Finset.mem_insert]
    omega
  rw [hIco, Finset.filter_insert]
  split_ifs with h
  · rw [Finset.card_insert_of_not_mem]
    simp
  · simp

theorem descents_le (p : Buf) (len : Nat) : descents p len ≤ len - 1 := by
  unfold descents
  calc ((Finset.Ico 1 len).filter (fun j => p (j - 1) > p j)).card
      ≤ (Finset.Ico 1 len).card := Finset.card_filter_le _ _
    _ = len - 1 := by simp

theorem descents_eq_zero_iff (p : Buf) (len : Nat) :
    descents p len = 0 ↔ ∀ i, i + 1 < len → p i ≤ p (i + 1) := by
  unfold descents
  rw [Finset.card_eq_zero, Finset.filter_eq_empty_iff]
  constructor
  · intro h i hi
    have := h (x := i + 1) (by simp; omega)
    simpa using this
  · intro h j hj
    rw [Finset.mem_Ico] at hj
    have := h (j - 1) (by omega)
    rw [Nat.sub_add_cancel hj.1] at this
    omega

theorem ConsumerChecker_loop_spec (p : Buf) (len : Nat) (hlen : len < 2 ^ 64)
    (hp : ∀ i, i < len → p i < 2 ^ 64) :
    ∀ fuel j, 1 ≤ j → j ≤ len → len - j < fuel →
      ConsumerChecker_loop p len fuel j (descents p j) (p (j - 1)) = some (descents p len) := by
  intro fuel
  induction fuel with
  | zero => intro j _ _ h; omega
  | succ fuel ih =>
    intro j hj1 hjl hfuel
    unfold ConsumerChecker_loop
    by_cases hlt : j < len
    · have hcur : u64 (p j) = p j := u64_of_lt (hp j hlt)
      have hd := descents_le p j
      have hinc : u64 (descents p j + 1) = descents p j + 1 := u64_of_lt (by omega)
      have hnext : u64 (j + 1) = j + 1 := u64_of_lt (by omega)
      simp only [hlt, if_true, hcur, hinc, hnext]
      have hstep : (if p (j - 1) > p j then descents p j + 1 else descents p j)
          = descents p (j + 1) := by
        rw [descents_succ p j hj1]
        split_ifs <;> rfl
      rw [hstep]
      have := ih (j + 1) (by omega) (by omega) (by omega)
      simpa using this
    · have : j = len := by omega
      subst this
      simp
/-- C3. For an item type of 1, 2, 4 or 8 bytes and an array `p` of `len ≥ 1`
items, `ConsumerChecker` returns (with fuel `len`) and its "unsorted keys"
count is the number of positions `j` in `[1, len)` with `p[j-1] > p[j]`; the
widening load preserves the order of items; the count is `0` exactly when `p`
is non-decreasing on `[0, len)`, and it is at most `len - 1`. -/
theorem ConsumerChecker_counts_descents (sz : Nat)
    (hsz : sz = 1 ∨ sz = 2 ∨ sz = 4 ∨ sz = 8) (p : Buf) (len : Nat)
    (hlen1 : 1 ≤ len) (hlen : len < 2 ^ 64)
    (hp : ∀ i, i < len → p i < 2 ^ (8 * sz)) (fuel : Nat) (hfuel : len ≤ fuel) :
    ∃ failed, ConsumerChecker p len fuel = some (failed, len) ∧
      failed = ((Finset.Ico 1 len).filter (fun j => p (j - 1) > p j)).card ∧
      (∀ i j, i < len → j < len → (u64 (p i) > u64 (p j) ↔ p i > p j)) ∧
      (failed = 0 ↔ ∀ i, i + 1 < len → p i ≤ p (i + 1)) ∧
      failed ≤ len - 1 := by
  have hp64 : ∀ i, i < len → p i < 2 ^ 64 := by
    intro i hi
    have h1 := hp i hi
    have h2 : (2 : Nat) ^ (8 * sz) ≤ 2 ^ 64 :=
      Nat.pow_le_pow_right (by decide) (by omega)
    omega
  refine ⟨descents p len, ?_, rfl, ?_, descents_eq_zero_iff p len, descents_le p len⟩
  · unfold ConsumerChecker
    have h0 : descents p 1 = 0 := by simp [descents]
    have := ConsumerChecker_loop_spec p len hlen hp64 fuel 1 (le_refl 1) hlen1 (by omega)
    rw [h0] at this
    rw [u64_of_lt (hp64 0 (by omega))]
    simpa using this
  · intro i j hi hj
    rw [u64_of_lt (hp64 i hi), u64_of_lt (hp64 j hj)]

theorem ConsumerChecker_counts_descents_witness :
    ∃ failed, ConsumerChecker (fun i => [3, 1, 2].getD i 0) 3 3 = some (failed, 3) ∧
      failed = ((Finset.Ico 1 3).filter
        (fun j => (fun i => [3, 1, 2].getD i 0) (j - 1) > (fun i => [3, 1, 2].getD i 0) j)).card ∧
      (∀ i j, i < 3 → j < 3 →
        (u64 ((fun i => [3, 1, 2].getD i 0) i) > u64 ((fun i => [3, 1, 2].getD i 0) j) ↔
          (fun i => [3, 1, 2].getD i 0) i > (fun i => [3, 1, 2].getD i 0) j)) ∧
      (failed = 0 ↔ ∀ i, i + 1 < 3 →
        (fun i => [3, 1, 2].getD i 0) i ≤ (fun i => [3, 1, 2].getD i 0) (i + 1)) ∧
      failed ≤ 3 - 1 :=
  ConsumerChecker_counts_descents 1 (Or.inl rfl) (fun i => [3, 1, 2].getD i 0) 3
    (by decide) (by decide)
    (by intro i hi; interval_cases i <;> decide) 3 (le_refl 3)

/-! ## Properties of WriterLCG -/

theorem lcgStep_eq_lcgF (s : Nat) : lcgStep s = lcgF s := by
  unfold lcgStep lcgF u64 lcgA lcgC
  rw [Nat.mod_add_mod, Nat.mul_comm]

theorem lcgStep_lt (s : Nat) : lcgStep s < 2 ^ 64 := by
  unfold lcgStep u64
  exact Nat.mod_lt _ (Nat.two_pow_pos 64)

theorem writerResult_round (sz : Nat) (p : Buf) (x y z w k : Nat) :
    ({ p := ((((writerResult sz p x y z w k).p.write (4 * k)
                (lcgKey sz (lcgStep (writerResult sz p x y z w k).x))).write (4 * k + 1)
                (lcgKey sz (lcgStep (writerResult sz p x y z w k).y))).write (4 * k + 2)
                (lcgKey sz (lcgStep (writerResult sz p x y z w k).z))).write (4 * k + 3)
                (lcgKey sz (lcgStep (writerResult sz p x y z w k).w)),
       x := lcgStep (writerResult sz p x y z w k).x,
       y := lcgStep (writerResult sz p x y z w k).y,
       z := lcgStep (writerResult sz p x y z w k).z,
       w := lcgStep (writerResult sz p x y z w k).w,
       log := (writerResult sz p x y z w k).log ++ [4 * k, 4 * k + 1, 4 * k + 2, 4 * k + 3] }
      : LCGState) = writerResult sz p x y z w (k + 1) := by
  unfold writerResult
  simp only [LCGState.mk.injEq, Function.iterate_succ_apply', true_and]
  refine ⟨?_, ?_⟩
  · funext j
    simp only [Buf.write]
    by_cases h3 : j = 4 * k + 3
    · subst h3
      have hd : (4 * k + 3) / 4 = k := by omega
      have hm : (4 * k + 3) % 4 = 3 := by omega
      have hl : 4 * k + 3 < 4 * (k + 1) := by omega
      simp [hd, hm, hl, seedOf, Function.iterate_succ_apply']
    · by_cases h2 : j = 4 * k + 2
      · subst h2
        have hd : (4 * k + 2) / 4 = k := by omega
        have hm : (4 * k + 2) % 4 = 2 := by omega
        have hl : 4 * k + 2 < 4 * (k + 1) := by omega
        simp [hd, hm, hl, seedOf, Function.iterate_succ_apply']
      · by_cases h1 : j = 4 * k + 1
        · subst h1
          have hd : (4 * k + 1) / 4 = k := by omega
          have hm : (4 * k + 1) % 4 = 1 := by omega
          have hl : 4 * k + 1 < 4 * (k + 1) := by omega
          simp [hd, hm, hl, seedOf, Function.iterate_succ_apply']
        · by_cases h0 : j = 4 * k
          · subst h0
            have hd : (4 * k) / 4 = k := by omega
            have hm : (4 * k) % 4 = 0 := by omega
            have hl : 4 * k < 4 * (k + 1) := by omega
            simp [hd, hm, hl, seedOf, Function.iterate_succ_apply']
          · simp only [h3, h2, h1, h0, if_false]
            by_cases hlt : j < 4 * k
            · have hlt2 : j < 4 * (k + 1) := by omega
              simp [hlt, hlt2]
            · have hlt2 : ¬ j < 4 * (k + 1) := by omega
              simp [hlt, hlt2]
  · have : 4 * (k + 1) = 4 * k + 1 + 1 + 1 + 1 := by ring
    rw [this]
    simp [List.range_succ]

theorem WriterLCG_loop_spec (sz len : Nat) (p : Buf) (x y z w : Nat)
    (hlen : len ≤ 2 ^ 64 - 4) :
    ∀ fuel k, k ≤ (len + 3) / 4 → (len + 3) / 4 - k < fuel →
      WriterLCG_loop sz len fuel (4 * k) (writerResult sz p x y z w k)
        = some (writerResult sz p x y z w ((len + 3) / 4)) := by
  intro fuel
  induction fuel with
  | zero => intro k _ h; omega
  | succ fuel ih =>
    intro k hk hfuel
    unfold WriterLCG_loop
    by_cases hlt : 4 * k < len
    · have h1 : u64 (4 * k + 1) = 4 * k + 1 := u64_of_lt (by omega)
      have h2 : u64 (4 * k + 2) = 4 * k + 2 := u64_of_lt (by omega)
      have h3 : u64 (4 * k + 3) = 4 * k + 3 := u64_of_lt (by omega)
      have h4 : u64 (4 * k + 4) = 4 * (k + 1) := by
        rw [u64_of_lt (by omega)]; ring
      simp only [hlt, if_true, h1, h2, h3, h4]
      rw [writerResult_round]
      exact ih (k + 1) (by omega) (by omega)
    · have : k = (len + 3) / 4 := by omega
      simp only [hlt, if_false]
      rw [← this]

theorem writerResult_zero (sz : Nat) (p : Buf) (x y z w : Nat) :
    writerResult sz p x y z w 0 = { p := p, x := x, y := y, z := z, w := w, log := [] } := by
  unfold writerResult
  simp

/-- For `len ≤ 2 ^ 64 - 4` the call returns, after `⌈len / 4⌉` rounds, the
state given in closed form by `writerResult`. -/
theorem WriterLCG_eq_writerResult (sz len : Nat) (p : Buf) (x y z w : Nat)
    (hlen : len ≤ 2 ^ 64 - 4) (fuel : Nat) (hfuel : (len + 3) / 4 < fuel) :
    WriterLCG sz p len x y z w fuel = some (writerResult sz p x y z w ((len + 3) / 4)) := by
  unfold WriterLCG
  have := WriterLCG_loop_spec sz len p x y z w hlen fuel 0 (Nat.zero_le _) (by omega)
  rw [writerResult_zero] at this
  simpa using this

theorem lcgStep_eq_lcgF_fun : lcgStep = lcgF := funext lcgStep_eq_lcgF

theorem lcgF_lt (s : Nat) : lcgF s < 2 ^ 64 := by
  unfold lcgF
  exact Nat.mod_lt _ (Nat.two_pow_pos 64)

theorem lcgF_iterate_succ_lt (k s : Nat) : lcgF^[k + 1] s < 2 ^ 64 := by
  rw [Function.iterate_succ_apply']
  exact lcgF_lt _

theorem upperShift_eq (sz : Nat) (hsz : sz = 1 ∨ sz = 2 ∨ sz = 4 ∨ sz = 8) :
    upperShift sz = 64 - 8 * sz := by
  rcases hsz with h | h | h | h <;> subst h <;> norm_num [upperShift, u64]

theorem shift_lt_of_lt (sz v : Nat) (hsz : sz = 1 ∨ sz = 2 ∨ sz = 4 ∨ sz = 8)
    (hv : v < 2 ^ 64) : v >>> (64 - 8 * sz) < 2 ^ (8 * sz) := by
  rw [Nat.shiftRight_eq_div_pow]
  apply Nat.div_lt_of_lt_mul
  rw [← Nat.pow_add]
  have : 64 - 8 * sz + 8 * sz = 64 := by omega
  rw [this]
  exact hv

theorem lcgKey_eq (sz v : Nat) (hsz : sz = 1 ∨ sz = 2 ∨ sz = 4 ∨ sz = 8)
    (hv : v < 2 ^ 64) : lcgKey sz v = v >>> (64 - 8 * sz) := by
  unfold lcgKey castItem
  rw [upperShift_eq sz hsz]
  exact Nat.mod_eq_of_lt (shift_lt_of_lt sz v hsz hv)

theorem writerResult_p_lt (sz : Nat) (hsz : sz = 1 ∨ sz = 2 ∨ sz = 4 ∨ sz = 8)
    (p : Buf) (x y z w m k r : Nat) (hk : k < m) (hr : r < 4) :
    (writerResult sz p x y z w m).p (4 * k + r)
      = lcgF^[k + 1] (seedOf x y z w r) >>> (64 - 8 * sz) := by
  unfold writerResult
  have hd : (4 * k + r) / 4 = k := by omega
  have hm : (4 * k + r) % 4 = r := by omega
  have hl : 4 * k + r < 4 * m := by omega
  simp only [hd, hm, hl, if_true]
  rw [lcgStep_eq_lcgF_fun]
  exact lcgKey_eq sz _ hsz (lcgF_iterate_succ_lt k _)

/-- C5. With `f = lcgF`, for an item type of `sz` bytes (`w = 8 * sz` bits),
`len` a multiple of 4 and any seeds, `WriterLCG` returns and, for every
`k < len / 4`, has stored `f^(k+1)` of the four seeds, shifted right by
`64 - w`, at indices `4k .. 4k+3`; each shifted value is below `2 ^ w` (for
`w = 64` it is the state itself); the four state variables end as `f^(len/4)`
of their seeds. -/
theorem WriterLCG_four_interleaved (sz : Nat) (hsz : sz = 1 ∨ sz = 2 ∨ sz = 4 ∨ sz = 8)
    (p : Buf) (len : Nat) (hlen4 : len % 4 = 0) (hlen : len < 2 ^ 64)
    (x0 y0 z0 w0 fuel : Nat) (hfuel : len / 4 < fuel) :
    ∃ s, WriterLCG sz p len x0 y0 z0 w0 fuel = some s ∧
      (∀ k, k < len / 4 →
        s.p (4 * k) = lcgF^[k + 1] x0 >>> (64 - 8 * sz) ∧
        s.p (4 * k + 1) = lcgF^[k + 1] y0 >>> (64 - 8 * sz) ∧
        s.p (4 * k + 2) = lcgF^[k + 1] z0 >>> (64 - 8 * sz) ∧
        s.p (4 * k + 3) = lcgF^[k + 1] w0 >>> (64 - 8 * sz)) ∧
      (∀ k v,
        lcgF^[k + 1] v >>> (64 - 8 * sz) < 2 ^ (8 * sz) ∧
        castItem sz (lcgF^[k + 1] v >>> (64 - 8 * sz)) = lcgF^[k + 1] v >>> (64 - 8 * sz) ∧
        (sz = 8 → lcgF^[k + 1] v >>> (64 - 8 * sz) = lcgF^[k + 1] v)) ∧
      s.x = lcgF^[len / 4] x0 ∧ s.y = lcgF^[len / 4] y0 ∧
      s.z = lcgF^[len / 4] z0 ∧ s.w = lcgF^[len / 4] w0 := by
  have hm : (len + 3) / 4 = len / 4 := by omega
  have hrun := WriterLCG_eq_writerResult sz len p x0 y0 z0 w0 (by omega) fuel (by omega)
  rw [hm] at hrun
  refine ⟨_, hrun, ?_, ?_, ?_⟩
  · intro k hk
    have h0 := writerResult_p_lt sz hsz p x0 y0 z0 w0 (len / 4) k 0 hk (by decide)
    have h1 := writerResult_p_lt sz hsz p x0 y0 z0 w0 (len / 4) k 1 hk (by decide)
    have h2 := writerResult_p_lt sz hsz p x0 y0 z0 w0 (len / 4) k 2 hk (by decide)
    have h3 := writerResult_p_lt sz hsz p x0 y0 z0 w0 (len / 4) k 3 hk (by decide)
    exact ⟨h0, h1, h2, h3⟩
  · intro k v
    have hlt := shift_lt_of_lt sz (lcgF^[k + 1] v) hsz (lcgF_iterate_succ_lt k v)
    refine ⟨hlt, Nat.mod_eq_of_lt hlt, ?_⟩
    intro h8
    subst h8
    have h : 64 - 8 * 8 = 0 := by norm_num
    rw [h, Nat.shiftRight_zero]
  · rw [← lcgStep_eq_lcgF_fun]
    exact ⟨rfl, rfl, rfl, rfl⟩

theorem WriterLCG_four_interleaved_witness :
    ∃ s, WriterLCG 1 (fun _ => 0) 4 10000 1000000000000 1000000000000000000 3 2 = some s ∧
      s.p 0 = 21 ∧ s.p 1 = 127 ∧ s.p 2 = 103 ∧ s.p 3 = 28 ∧
      s.x = 1537879210865938207 := by
  obtain ⟨s, hs, hp, _, hx, _⟩ :=
    WriterLCG_four_interleaved 1 (Or.inl rfl) (fun _ => 0) 4 (by decide) (by decide)
      10000 1000000000000 1000000000000000000 3 2 (by decide)
  have h0 := hp 0 (by decide)
  refine ⟨s, hs, ?_, ?_, ?_, ?_, ?_⟩
  · rw [h0.1]; decide
  · rw [h0.2.1]; decide
  · rw [h0.2.2.1]; decide
  · rw [h0.2.2.2]; decide
  · rw [hx]; decide

theorem countP_range_ge (len : Nat) :
    ∀ n, (List.range n).countP (fun j => decide (len ≤ j)) = n - len := by
  intro n
  induction n with
  | zero => simp
  | succ n ih =>
    rw [List.range_succ, List.countP_append, ih]
    by_cases h : len ≤ n
    · simp [h]; omega
    · simp [h]; omega

theorem itemsPerSort_eq (sz : Nat) (hsz : sz = 1 ∨ sz = 2 ∨ sz = 4 ∨ sz = 8) :
    itemsPerSort sz = 2 ^ 30 / sz := by
  rcases hsz with h | h | h | h <;> subst h <;> norm_num [itemsPerSort, u64, GB, Nat.shiftLeft_eq]

theorem itemsPerSort_mul (sz : Nat) (hsz : sz = 1 ∨ sz = 2 ∨ sz = 4 ∨ sz = 8) :
    itemsPerSort sz * sz = 2 ^ 30 := by
  rw [itemsPerSort_eq sz hsz]
  rcases hsz with h | h | h | h <;> subst h <;> norm_num

/-- C9. For every `len` that a buffer can have, `len ≤ 2 ^ 64 - 4` (the
stores reach index `4 * ⌈len / 4⌉ - 1`, and no buffer has `2 ^ 64` items),
`WriterLCG` returns, and the indices it stores to are exactly
`0 .. 4 * ⌈len / 4⌉ - 1`, each once, in increasing order; memory at other indices is unchanged; started on another
memory it returns the same generator states, the same stores and the same
stored values (it loads nothing from `p`); every store is below `len` exactly
when `len` is a multiple of 4, and otherwise `4 - len mod 4` stores fall at or
past `len`. For the four item types `itemsPerSort` is a multiple of 4 and all
stores of the call made by `Run` are below `itemsPerSort`. -/
theorem WriterLCG_store_footprint (sz len : Nat) (p : Buf) (x y z w fuel : Nat)
    (hlen : len ≤ 2 ^ 64 - 4) (hfuel : (len + 3) / 4 < fuel) :
    (∃ s, WriterLCG sz p len x y z w fuel = some s ∧
      s.log = List.range (4 * ((len + 3) / 4)) ∧
      (∀ j, 4 * ((len + 3) / 4) ≤ j → s.p j = p j) ∧
      (∀ q : Buf, ∃ t, WriterLCG sz q len x y z w fuel = some t ∧
        t.log = s.log ∧ t.x = s.x ∧ t.y = s.y ∧ t.z = s.z ∧ t.w = s.w ∧
        ∀ j, j ∈ s.log → t.p j = s.p j) ∧
      ((∀ j, j ∈ s.log → j < len) ↔ len % 4 = 0) ∧
      (len % 4 ≠ 0 → s.log.countP (fun j => decide (len ≤ j)) = 4 - len % 4)) ∧
    (∀ isz, isz = 1 ∨ isz = 2 ∨ isz = 4 ∨ isz = 8 →
      itemsPerSort isz % 4 = 0 ∧
      ∀ (q : Buf) (a b c d g : Nat), itemsPerSort isz / 4 < g →
        ∃ t, WriterLCG isz q (itemsPerSort isz) a b c d g = some t ∧
          ∀ j, j ∈ t.log → j < itemsPerSort isz) := by
  constructor
  · refine ⟨_, WriterLCG_eq_writerResult sz len p x y z w hlen fuel hfuel, rfl, ?_, ?_, ?_, ?_⟩
    · intro j hj
      have : ¬ j < 4 * ((len + 3) / 4) := by omega
      simp only [writerResult, this, if_false]
    · intro q
      refine ⟨_, WriterLCG_eq_writerResult sz len q x y z w hlen fuel hfuel,
        rfl, rfl, rfl, rfl, rfl, ?_⟩
      intro j hj
      have hj2 : j < 4 * ((len + 3) / 4) := List.mem_range.mp hj
      simp only [writerResult, hj2, if_true]
    · simp only [writerResult, List.mem_range]
      constructor
      · intro h
        by_contra hne
        have := h len (by omega)
        omega
      · intro h j hj
        omega
    · intro hne
      simp only [writerResult]
      rw [countP_range_ge]
      omega
  · intro isz hisz
    have hn := itemsPerSort_eq isz hisz
    have h4 : itemsPerSort isz % 4 = 0 := by
      rw [hn]
      rcases hisz with h | h | h | h <;> subst h <;> norm_num
    have hle : itemsPerSort isz ≤ 2 ^ 64 - 4 := by
      rw [hn]
      rcases hisz with h | h | h | h <;> subst h <;> norm_num
    refine ⟨h4, ?_⟩
    intro q a b c d g hg
    refine ⟨_, WriterLCG_eq_writerResult isz (itemsPerSort isz) q a b c d hle g (by omega), ?_⟩
    intro j hj
    have hj2 : j < 4 * ((itemsPerSort isz + 3) / 4) := List.mem_range.mp hj
    omega

theorem WriterLCG_store_footprint_witness :
    (∃ s, WriterLCG 2 (fun _ => 7) 5 10000 1000000000000 1000000000000000000 3 3 = some s ∧
      s.log = [0, 1, 2, 3, 4, 5, 6, 7] ∧ s.p 8 = 7 ∧
      s.log.countP (fun j => decide (5 ≤ j)) = 3) := by
  obtain ⟨⟨s, hs, hlog, hout, _, _, hcnt⟩, _⟩ :=
    WriterLCG_store_footprint 2 5 (fun _ => 7) 10000 1000000000000 1000000000000000000 3 3
      (by decide) (by decide)
  exact ⟨s, hs, by rw [hlog]; decide, hout 8 (by decide), by rw [hcnt (by decide)]⟩

/-! ## The overhead figure -/

theorem shiftLeft_no_wrap (blockCount bsp : Nat) (h : blockCount < 2 ^ (64 - bsp)) :
    u64 (blockCount <<< bsp) = blockCount * 2 ^ bsp := by
  rw [Nat.shiftLeft_eq]
  by_cases hb : bsp ≤ 64
  · apply u64_of_lt
    calc blockCount * 2 ^ bsp < 2 ^ (64 - bsp) * 2 ^ bsp :=
          Nat.mul_lt_mul_of_pos_right h (Nat.two_pow_pos bsp)
      _ = 2 ^ 64 := by rw [← Nat.pow_add, Nat.sub_add_cancel hb]
  · have h0 : 64 - bsp = 0 := by omega
    rw [h0] at h
    have : blockCount = 0 := by omega
    subst this
    simp [u64]

theorem overheadOf_of_no_wrap (blockCount bsp n sz : Nat)
    (h : blockCount < 2 ^ (64 - bsp)) :
    overheadOf blockCount bsp n sz = specOverheadMetric blockCount (2 ^ bsp) n sz * 100 := by
  unfold overheadOf specOverheadMetric memUsed memIdeal
  rw [shiftLeft_no_wrap blockCount bsp h]
  push_cast
  rfl

/-- C4. Provided `blockCount < 2 ^ (64 - blockSizePower)`, the overhead
figure computed on lines 97-100 equals, in exact rational arithmetic, the
specification's metric `(blockCount × blockSize) / (n × itemSize) − 1` with
`blockSize = 2 ^ blockSizePower`, times 100; in particular so does the figure
`Run` prints, where `blockSizePower = 20` and `n = itemsPerSort`. -/
theorem overheadOf_eq_specOverheadMetric (blockCount bsp n sz : Nat)
    (h : blockCount < 2 ^ (64 - bsp)) :
    overheadOf blockCount bsp n sz = specOverheadMetric blockCount (2 ^ bsp) n sz * 100 ∧
    (bsp = blockSizePower → n = itemsPerSort sz →
      overhead sz blockCount
        = specOverheadMetric blockCount (2 ^ blockSizePower) (itemsPerSort sz) sz * 100) := by
  refine ⟨overheadOf_of_no_wrap blockCount bsp n sz h, ?_⟩
  intro hb hn
  subst hb hn
  exact overheadOf_of_no_wrap blockCount blockSizePower (itemsPerSort sz) sz h

theorem overheadOf_eq_specOverheadMetric_witness :
    overheadOf 1100 20 134217728 8 = specOverheadMetric 1100 (2 ^ 20) 134217728 8 * 100 ∧
    overheadOf 1100 20 134217728 8 = 475 / 64 :=
  ⟨(overheadOf_eq_specOverheadMetric 1100 20 134217728 8 (by norm_num)).1,
   by norm_num [overheadOf, memUsed, memIdeal, u64, Nat.shiftLeft_eq]⟩

theorem overhead_eq (sz blockCount : Nat) (hsz : sz = 1 ∨ sz = 2 ∨ sz = 4 ∨ sz = 8)
    (hb : blockCount < 2 ^ 44) : overhead sz blockCount = ((blockCount : ℚ) / 1024 - 1) * 100 := by
  have h := overheadOf_of_no_wrap blockCount blockSizePower (itemsPerSort sz) sz
    (by simpa [blockSizePower] using hb)
  unfold overhead
  rw [h]
  unfold specOverheadMetric
  have hm : ((itemsPerSort sz : ℚ) * (sz : ℚ)) = 2 ^ 30 := by
    have := itemsPerSort_mul sz hsz
    exact_mod_cast this
  rw [hm]
  simp only [blockSizePower]
  push_cast
  ring

/-- C8. For `GB = 1`, `blockSizePower = 20` and an item type of 1, 2, 4 or 8
bytes: `2 ^ 30` is divisible by the item size, `memory` is `2 ^ 30` bytes,
and the pool capacity formula gives exactly 1024 blocks with no rounding
remainder; and for every block count a pool can have (its live blocks occupy
`blockCount × blockSize < 2 ^ 64` bytes of memory) the printed overhead is
`0` exactly when `blockCount = 1024`, and non-negative exactly when
`blockCount × blockSize ≥ n × itemSize`. -/
theorem harness_footprint (sz : Nat) (hsz : sz = 1 ∨ sz = 2 ∨ sz = 4 ∨ sz = 8) :
    2 ^ 30 % sz = 0 ∧
    itemsPerSort sz = 2 ^ 30 / sz ∧
    memory sz = 2 ^ 30 ∧
    itemsPerSort sz * sz = 2 ^ 30 ∧
    poolCapacity (itemsPerSort sz) sz (2 ^ blockSizePower) = 1024 ∧
    (itemsPerSort sz * sz) % 2 ^ blockSizePower = 0 ∧
    ∀ blockCount, blockCount * 2 ^ blockSizePower < 2 ^ 64 →
      (overhead sz blockCount = 0 ↔ blockCount = 1024) ∧
      (0 ≤ overhead sz blockCount ↔
        blockCount * 2 ^ blockSizePower ≥ itemsPerSort sz * sz) := by
  have hmul := itemsPerSort_mul sz hsz
  refine ⟨?_, itemsPerSort_eq sz hsz, ?_, hmul, ?_, ?_, ?_⟩
  · rcases hsz with h | h | h | h <;> subst h <;> norm_num
  · unfold memory
    rw [hmul]
    norm_num [u64]
  · unfold poolCapacity
    rw [hmul]
    norm_num [blockSizePower]
  · rw [hmul]
    norm_num [blockSizePower]
  · intro blockCount hlive
    have hb : blockCount < 2 ^ 44 := by
      simp only [blockSizePower] at hlive
      omega
    rw [overhead_eq sz blockCount hsz hb, hmul]
    constructor
    · constructor
      · intro h
        have h1 : (blockCount : ℚ) = 1024 := by linarith
        exact_mod_cast h1
      · intro h
        subst h
        norm_num
    · constructor
      · intro h
        have h1 : (1024 : ℚ) ≤ (blockCount : ℚ) := by linarith
        have h2 : 1024 ≤ blockCount := by exact_mod_cast h1
        simp only [blockSizePower]
        omega
      · intro h
        simp only [blockSizePower] at h
        have h2 : 1024 ≤ blockCount := by omega
        have h1 : (1024 : ℚ) ≤ (blockCount : ℚ) := by exact_mod_cast h2
        linarith

theorem harness_footprint_witness :
    itemsPerSort 8 = 134217728 ∧ memory 8 = 1073741824 ∧
    poolCapacity (itemsPerSort 8) 8 (2 ^ blockSizePower) = 1024 ∧
    (overhead 8 1024 = 0 ↔ 1024 = 1024) ∧
    (0 ≤ overhead 8 1100 ↔ 1100 * 2 ^ blockSizePower ≥ itemsPerSort 8 * 8) := by
  obtain ⟨_, hn, hm, _, hc, _, ho⟩ := harness_footprint 8 (Or.inr (Or.inr (Or.inr rfl)))
  exact ⟨by rw [hn]; norm_num, by rw [hm]; norm_num, hc,
    (ho 1024 (by norm_num [blockSizePower])).1, (ho 1100 (by norm_num [blockSizePower])).2⟩

/-! ## The loop of Run -/

theorem lcgA_inverse : ((6364136223846793005 : ZMod (2 ^ 64)) * 13877824140714322085) = 1 := by
  have h : ((6364136223846793005 * 13877824140714322085 : ℕ) : ZMod (2 ^ 64))
      = ((1 : ℕ) : ZMod (2 ^ 64)) :=
    (ZMod.natCast_eq_natCast_iff' _ _ _).2 (by norm_num)
  exact_mod_cast h

theorem lcgC_neg : (((2 ^ 64 - 1442695040888963407 : ℕ) : ZMod (2 ^ 64)))
    = - (1442695040888963407 : ZMod (2 ^ 64)) := by
  have h : ((2 ^ 64 - 1442695040888963407 + 1442695040888963407 : ℕ) : ZMod (2 ^ 64)) = 0 := by
    rw [Nat.sub_add_cancel (by norm_num)]
    exact ZMod.natCast_self (2 ^ 64)
  rw [Nat.cast_add] at h
  have h2 := eq_neg_of_add_eq_zero_left h
  rw [h2]
  norm_cast

theorem lcgF_lcgInv (t : Nat) (ht : t < 2 ^ 64) : lcgF (lcgInv t) = t := by
  have hl : lcgF (lcgInv t) % 2 ^ 64 = t % 2 ^ 64 := by
    rw [← ZMod.natCast_eq_natCast_iff']
    unfold lcgF lcgInv
    rw [ZMod.natCast_mod, Nat.cast_add, Nat.cast_mul, ZMod.natCast_mod, Nat.cast_mul,
      Nat.cast_add, lcgC_neg]
    push_cast
    linear_combination ((t : ZMod (2 ^ 64)) - 1442695040888963407) * lcgA_inverse
  rw [Nat.mod_eq_of_lt (lcgF_lt _), Nat.mod_eq_of_lt ht] at hl
  exact hl

theorem lcgInv_lt (t : Nat) : lcgInv t < 2 ^ 64 := by
  unfold lcgInv
  exact Nat.mod_lt _ (Nat.two_pow_pos 64)

theorem lcgInv_lcgF (s : Nat) (hs : s < 2 ^ 64) : lcgInv (lcgF s) = s := by
  have hl : lcgInv (lcgF s) % 2 ^ 64 = s % 2 ^ 64 := by
    rw [← ZMod.natCast_eq_natCast_iff']
    unfold lcgF lcgInv
    rw [ZMod.natCast_mod, Nat.cast_mul, Nat.cast_add, ZMod.natCast_mod, Nat.cast_add,
      Nat.cast_mul, lcgC_neg]
    push_cast
    linear_combination (s : ZMod (2 ^ 64)) * lcgA_inverse
  rw [Nat.mod_eq_of_lt (lcgInv_lt _), Nat.mod_eq_of_lt hs] at hl
  exact hl

theorem filter_div_eq_Ico (M P Q v : Nat) (hP : 0 < P) (hM : Q * P = M) (hv : v < Q) :
    (Finset.range M).filter (fun t => t / P = v) = Finset.Ico (v * P) ((v + 1) * P) := by
  ext t
  simp only [Finset.mem_filter, Finset.mem_range, Finset.mem_Ico]
  constructor
  · rintro ⟨_, h⟩
    have h1 := Nat.div_add_mod t P
    have h2 := Nat.mod_lt t hP
    rw [h] at h1
    rw [Nat.add_mul, Nat.one_mul, Nat.mul_comm v P]
    omega
  · rintro ⟨h1, h2⟩
    refine ⟨?_, Nat.div_eq_of_lt_le h1 h2⟩
    have h3 : (v + 1) * P ≤ Q * P := Nat.mul_le_mul_right P hv
    omega

theorem card_shift_eq (sz v : Nat) (hsz : sz = 1 ∨ sz = 2 ∨ sz = 4 ∨ sz = 8)
    (hv : v < 2 ^ (8 * sz)) :
    ((Finset.range (2 ^ 64)).filter (fun t => t >>> (64 - 8 * sz) = v)).card
      = 2 ^ (64 - 8 * sz) := by
  have hM : 2 ^ (8 * sz) * 2 ^ (64 - 8 * sz) = 2 ^ 64 := by
    rw [← Nat.pow_add]
    congr 1
    omega
  have hfun : (Finset.range (2 ^ 64)).filter (fun t => t >>> (64 - 8 * sz) = v)
      = (Finset.range (2 ^ 64)).filter (fun t => t / 2 ^ (64 - 8 * sz) = v) := by
    apply Finset.filter_congr
    intro t _
    rw [Nat.shiftRight_eq_div_pow]
  rw [hfun, filter_div_eq_Ico (2 ^ 64) (2 ^ (64 - 8 * sz)) (2 ^ (8 * sz)) v
    (Nat.two_pow_pos _) hM hv, Nat.card_Ico, Nat.add_mul, Nat.one_mul, Nat.add_sub_cancel_left]

theorem card_lcgF_shift_eq (sz v : Nat) (hsz : sz = 1 ∨ sz = 2 ∨ sz = 4 ∨ sz = 8)
    (hv : v < 2 ^ (8 * sz)) :
    ((Finset.range (2 ^ 64)).filter (fun s => lcgF s >>> (64 - 8 * sz) = v)).card
      = 2 ^ (64 - 8 * sz) := by
  rw [← card_shift_eq sz v hsz hv]
  apply Finset.card_nbij' lcgF lcgInv
  · intro s hs
    rw [Finset.mem_filter, Finset.mem_range] at hs ⊢
    exact ⟨lcgF_lt s, hs.2⟩
  · intro t ht
    rw [Finset.mem_filter, Finset.mem_range] at ht ⊢
    refine ⟨lcgInv_lt t, ?_⟩
    rw [lcgF_lcgInv t ht.1]
    exact ht.2
  · intro s hs
    rw [Finset.mem_filter, Finset.mem_range] at hs
    exact lcgInv_lcgF s hs.1
  · intro t ht
    rw [Finset.mem_filter, Finset.mem_range] at ht
    exact lcgF_lcgInv t ht.1

/-- C6. For an item type of `sz` bytes (`w = 8 * sz` bits) and every key
value `v < 2 ^ w`, exactly `2 ^ (64 - w)` of the `2 ^ 64` generator states `s`
give, after one update, the key `v`: both for the key as `WriterLCG` computes
it and for the formula `((a * s + c) mod 2 ^ 64) >> (64 - w)`; and the update
is a bijection of the 64-bit states onto themselves. -/
theorem lcgKey_uniform (sz v : Nat) (hsz : sz = 1 ∨ sz = 2 ∨ sz = 4 ∨ sz = 8)
    (hv : v < 2 ^ (8 * sz)) :
    ((Finset.range (2 ^ 64)).filter (fun s => lcgKey sz (lcgStep s) = v)).card
      = 2 ^ (64 - 8 * sz) ∧
    ((Finset.range (2 ^ 64)).filter (fun s =>
      ((6364136223846793005 * s + 1442695040888963407) % 2 ^ 64) >>> (64 - 8 * sz) = v)).card
      = 2 ^ (64 - 8 * sz) ∧
    Set.BijOn lcgStep (Set.Iio (2 ^ 64)) (Set.Iio (2 ^ 64)) := by
  have hkey : (Finset.range (2 ^ 64)).filter (fun s => lcgKey sz (lcgStep s) = v)
      = (Finset.range (2 ^ 64)).filter (fun s => lcgF s >>> (64 - 8 * sz) = v) := by
    apply Finset.filter_congr
    intro s _
    rw [lcgStep_eq_lcgF, lcgKey_eq sz _ hsz (lcgF_lt s)]
  refine ⟨?_, card_lcgF_shift_eq sz v hsz hv, ?_⟩
  · rw [hkey]
    exact card_lcgF_shift_eq sz v hsz hv
  · rw [lcgStep_eq_lcgF_fun]
    refine ⟨?_, ?_, ?_⟩
    · intro s _
      exact lcgF_lt s
    · intro s hs s' hs' h
      have h1 := lcgInv_lcgF s hs
      have h2 := lcgInv_lcgF s' hs'
      rw [← h1, ← h2, h]
    · intro t ht
      exact ⟨lcgInv t, lcgInv_lt t, lcgF_lcgInv t ht⟩

theorem lcgKey_uniform_witness :
    ((Finset.range (2 ^ 64)).filter (fun s => lcgKey 1 (lcgStep s) = 21)).card = 2 ^ 56 ∧
    lcgKey 1 (lcgStep 10000) = 21 :=
  ⟨(lcgKey_uniform 1 21 (Or.inl rfl) (by norm_num)).1, by decide⟩

/-! ## Properties of the modelled VortexSort -/

theorem Bucket_Append_items (cfg : SortConfig) (pool : BlockPool) (b : Bucket) (item : Nat)
    (b1 : Bucket) (pool1 : BlockPool)
    (h : b.Append cfg pool item = Except.ok (b1, pool1)) : b1.items = b.items ++ [item] := by
  unfold Bucket.Append at h
  split at h
  · split at h
    · cases h
    · cases h
      rfl
  · cases h
    rfl

theorem partitionPass_items (cfg : SortConfig) (digit : Nat → Nat) :
    ∀ (items : List Nat) (bs : Nat → Bucket) (pool : BlockPool) (bs1 : Nat → Bucket)
      (pool1 : BlockPool),
      partitionPass cfg digit items bs pool = Except.ok (bs1, pool1) →
      ∀ j, (bs1 j).items = (bs j).items ++ items.filter (fun a => decide (digit a = j)) := by
  intro items
  induction items with
  | nil =>
    intro bs pool bs1 pool1 h j
    unfold partitionPass at h
    cases h
    simp
  | cons item rest ih =>
    intro bs pool bs1 pool1 h j
    unfold partitionPass at h
    split at h
    · cases h
    · rename_i b pool2 happ
      have hb := Bucket_Append_items cfg pool _ item b pool2 happ
      have := ih _ pool2 bs1 pool1 h j
      rw [this]
      by_cases hj : j = digit item
      · subst hj
        simp [hb]
      · have hj2 : ¬ digit item = j := fun e => hj e.symm
        simp [hj, hj2]

theorem filter_digit_perm (digit : Nat → Nat) (items : List Nat) :
    ∀ nb, ((List.range' 0 nb).flatMap (fun i => items.filter (fun a => decide (digit a = i)))).Perm
      (items.filter (fun a => decide (digit a < nb))) := by
  intro nb
  induction nb with
  | zero => simp
  | succ nb ih =>
    rw [List.range'_1_concat, List.flatMap_append]
    simp only [Nat.zero_add, List.flatMap_cons, List.flatMap_nil, List.append_nil]
    have hsplit := List.filter_append_perm (fun a => decide (digit a < nb))
      (items.filter (fun a => decide (digit a < nb + 1)))
    rw [List.filter_filter, List.filter_filter] at hsplit
    have h1 : items.filter (fun a => decide (digit a < nb) && decide (digit a < nb + 1))
        = items.filter (fun a => decide (digit a < nb)) := by
      apply List.filter_congr
      intro a _
      by_cases h : digit a < nb
      · have : digit a < nb + 1 := by omega
        simp [h, this]
      · simp [h]
    have h2 : items.filter (fun a => (!decide (digit a < nb)) && decide (digit a < nb + 1))
        = items.filter (fun a => decide (digit a = nb)) := by
      apply List.filter_congr
      intro a _
      by_cases h : digit a = nb
      · simp [h]
      · by_cases h3 : digit a < nb
        · simp [h, h3]
        · have : ¬ digit a < nb + 1 := by omega
          simp [h, this]
    rw [h1, h2] at hsplit
    exact (List.Perm.append_right _ ih).trans hsplit

theorem flushBuckets_spec
    (sortOne : BlockPool → List Nat → Except SortError (List Nat × BlockPool))
    (bs : Nat → Bucket) (P : List Nat → Prop)
    (hP : ∀ pool items out pool1, sortOne pool items = Except.ok (out, pool1) →
      out.Perm items ∧ (P items → out.Sorted (· ≤ ·))) :
    ∀ count j pool out pool1, flushBuckets sortOne bs count j pool = Except.ok (out, pool1) →
      out.Perm ((List.range' j count).flatMap (fun i => (bs i).items)) ∧
      ((∀ i, j ≤ i → i < j + count → P (bs i).items) →
       (∀ i k, j ≤ i → i < k → k < j + count →
          ∀ a, a ∈ (bs i).items → ∀ b, b ∈ (bs k).items → a ≤ b) →
       out.Sorted (· ≤ ·)) := by
  intro count
  induction count with
  | zero =>
    intro j pool out pool1 h
    unfold flushBuckets at h
    cases h
    simp
  | succ count ih =>
    intro j pool out pool1 h
    unfold flushBuckets at h
    split at h
    · cases h
    · rename_i o pool2 hone
      split at h
      · cases h
      · rename_i os pool3 hrest
        cases h
        obtain ⟨hperm1, hsort1⟩ := hP pool (bs j).items o pool2 hone
        obtain ⟨hperm2, hsort2⟩ := ih (j + 1) _ os pool1 hrest
        constructor
        · rw [List.range'_succ, List.flatMap_cons]
          exact List.Perm.append hperm1 hperm2
        · intro hPall hord
          unfold List.Sorted
          rw [List.pairwise_append]
          refine ⟨hsort1 (hPall j (le_refl j) (by omega)), ?_, ?_⟩
          · apply hsort2
            · intro i hi1 hi2
              exact hPall i (by omega) (by omega)
            · intro i k hi hik hk a ha b hb
              exact hord i k (by omega) hik (by omega) a ha b hb
          · intro a ha b hb
            have ha1 : a ∈ (bs j).items := hperm1.mem_iff.mp ha
            have hb1 := hperm2.mem_iff.mp hb
            rw [List.mem_flatMap] at hb1
            obtain ⟨k, hk, hbk⟩ := hb1
            rw [List.mem_range'_1] at hk
            exact hord j k (le_refl j) (by omega) (by omega) a ha1 b hbk

theorem shift_split (s b x : Nat) :
    x >>> s = 2 ^ b * (x >>> (s + b)) + (x >>> s) % 2 ^ b := by
  rw [Nat.shiftRight_add]
  rw [Nat.shiftRight_eq_div_pow (x >>> s) b]
  exact (Nat.div_add_mod (x >>> s) (2 ^ b)).symm

theorem digit_same (s b x y : Nat) (hxy : x >>> (s + b) = y >>> (s + b))
    (hd : (x >>> s) % 2 ^ b = (y >>> s) % 2 ^ b) : x >>> s = y >>> s := by
  rw [shift_split s b x, shift_split s b y, hxy, hd]

theorem digit_order (s b x y : Nat) (hxy : x >>> (s + b) = y >>> (s + b))
    (hd : (x >>> s) % 2 ^ b < (y >>> s) % 2 ^ b) : x ≤ y := by
  have hlt : x >>> s < y >>> s := by
    rw [shift_split s b x, shift_split s b y, hxy]
    omega
  by_contra hcon
  have hyx : y ≤ x := by omega
  have : y >>> s ≤ x >>> s := by
    rw [Nat.shiftRight_eq_div_pow, Nat.shiftRight_eq_div_pow]
    exact Nat.div_le_div_right hyx
  omega

theorem bitsLeft_split (cfg : SortConfig) (level : Nat) :
    cfg.bitsLeft level = cfg.bitsLeft (level + 1) + cfg.digitWidth level ∧
    cfg.bitsLeft level - cfg.digitWidth level = cfg.bitsLeft (level + 1) := by
  unfold SortConfig.digitWidth SortConfig.bitsLeft
  rw [Nat.add_mul, Nat.one_mul]
  omega

theorem digitAt_lt (cfg : SortConfig) (level key : Nat) :
    cfg.digitAt level key < cfg.nBuckets level := by
  unfold SortConfig.digitAt
  exact Nat.mod_lt _ (Nat.two_pow_pos _)

theorem sortBucket_spec (cfg : SortConfig) :
    ∀ depthLeft level pool items out pool1,
      sortBucket cfg depthLeft level pool items = Except.ok (out, pool1) →
      out.Perm items ∧
      ((∀ a, a ∈ items → ∀ b, b ∈ items →
          a >>> cfg.bitsLeft level = b >>> cfg.bitsLeft level) →
        out.Sorted (· ≤ ·)) := by
  intro depthLeft
  induction depthLeft with
  | zero =>
    intro level pool items out pool1 h
    unfold sortBucket at h
    cases h
    exact ⟨List.perm_insertionSort _ _, fun _ => List.sorted_insertionSort _ _⟩
  | succ depthLeft ih =>
    intro level pool items out pool1 h
    unfold sortBucket at h
    split at h
    · cases h
      exact ⟨List.perm_insertionSort _ _, fun _ => List.sorted_insertionSort _ _⟩
    · split at h
      · cases h
      · rename_i bs pool2 hpart
        have hitems : ∀ j, (bs j).items
            = items.filter (fun a => decide (cfg.digitAt level a = j)) := by
          intro j
          have := partitionPass_items cfg (cfg.digitAt level) items _ pool bs pool2 hpart j
          simpa using this
        obtain ⟨hperm, hsorted⟩ := flushBuckets_spec (sortBucket cfg depthLeft (level + 1)) bs
          (fun l => ∀ a, a ∈ l → ∀ b, b ∈ l →
            a >>> cfg.bitsLeft (level + 1) = b >>> cfg.bitsLeft (level + 1))
          (fun pool items out pool1 hrun => ih (level + 1) pool items out pool1 hrun)
          (cfg.nBuckets level) 0 pool2 out pool1 h
        obtain ⟨hsplit, hsub⟩ := bitsLeft_split cfg level
        constructor
        · have hfun : (fun i => (bs i).items)
              = (fun i => items.filter (fun a => decide (cfg.digitAt level a = i))) :=
            funext hitems
          rw [hfun] at hperm
          refine hperm.trans ((filter_digit_perm (cfg.digitAt level) items _).trans ?_)
          rw [List.filter_eq_self.mpr]
          intro a _
          simpa using digitAt_lt cfg level a
        · intro hinv
          apply hsorted
          · intro i _ _ a ha b hb
            rw [hitems i, List.mem_filter] at ha hb
            have hda : cfg.digitAt level a = i := by simpa using ha.2
            have hdb : cfg.digitAt level b = i := by simpa using hb.2
            have hab := hinv a ha.1 b hb.1
            rw [hsplit] at hab
            apply digit_same _ (cfg.digitWidth level) a b hab
            have := hda.trans hdb.symm
            unfold SortConfig.digitAt SortConfig.nBuckets at this
            rw [hsub] at this
            exact this
          · intro i k _ hik _ a ha b hb
            rw [hitems i, List.mem_filter] at ha
            rw [hitems k, List.mem_filter] at hb
            have hda : cfg.digitAt level a = i := by simpa using ha.2
            have hdb : cfg.digitAt level b = k := by simpa using hb.2
            have hab := hinv a ha.1 b hb.1
            rw [hsplit] at hab
            apply digit_order _ (cfg.digitWidth level) a b hab
            have hlt : cfg.digitAt level a < cfg.digitAt level b := by omega
            unfold SortConfig.digitAt SortConfig.nBuckets at hlt
            rw [hsub] at hlt
            exact hlt

theorem shiftRight_keyBits_eq_zero (k a : Nat) (h : a < 2 ^ k) : a >>> k = 0 := by
  rw [Nat.shiftRight_eq_div_pow]
  exact Nat.div_eq_of_lt h

/-- The shape of a successful call: either `n = 0` and the output is
untouched, or the output is the sorted bucket followed by the rest of the
output buffer. -/
theorem VortexSort_Sort_ok (cfg : SortConfig) (pool : BlockPool) (inputBuf outputBuf : List Nat)
    (n : Nat) (res : List Nat) (pool1 : BlockPool)
    (h : VortexSort_Sort cfg pool inputBuf outputBuf n = Except.ok (res, pool1)) :
    (n = 0 ∧ res = outputBuf) ∨
    (∃ out, sortBucket cfg cfg.maxDepth 0 pool (inputBuf.take n) = Except.ok (out, pool1) ∧
      res = out ++ outputBuf.drop n) := by
  unfold VortexSort_Sort at h
  split at h
  · cases h
  · split at h
    · cases h
    · split at h
      · rename_i hn
        cases h
        exact Or.inl ⟨hn, rfl⟩
      · split at h
        · cases h
        · rename_i out pool2 hrun
          cases h
          exact Or.inr ⟨out, hrun, rfl⟩

/-- C1. Whenever the modelled `Sort(inputBuf, outputBuf, n)` returns
successfully on `n` keys of the configured width, whether or not `outputBuf`
is `inputBuf`, the first `n` items of the output are non-decreasing:
`output[i] ≤ output[i+1]` for all `i` with `i + 1 < n`. -/
theorem VortexSort_Sort_sorted (cfg : SortConfig) (pool : BlockPool)
    (inputBuf outputBuf : List Nat) (n : Nat) (res : List Nat) (pool1 : BlockPool)
    (hkeys : ∀ a, a ∈ inputBuf.take n → a < 2 ^ cfg.keyBits)
    (hn : n ≤ inputBuf.length)
    (h : VortexSort_Sort cfg pool inputBuf outputBuf n = Except.ok (res, pool1)) :
    (res.take n).Sorted (· ≤ ·) ∧
    ∀ i, i + 1 < n → res.getD i 0 ≤ res.getD (i + 1) 0 := by
  rcases VortexSort_Sort_ok cfg pool inputBuf outputBuf n res pool1 h with ⟨h0, _⟩ | ⟨out, hrun, hres⟩
  · subst h0
    exact ⟨by simp, fun i hi => by omega⟩
  · obtain ⟨hperm, hsorted⟩ := sortBucket_spec cfg cfg.maxDepth 0 pool _ out pool1 hrun
    have hlen : out.length = n := by
      rw [hperm.length_eq, List.length_take]
      omega
    have hs : out.Sorted (· ≤ ·) := by
      apply hsorted
      intro a ha b hb
      have hk : cfg.bitsLeft 0 = cfg.keyBits := by simp [SortConfig.bitsLeft]
      rw [hk, shiftRight_keyBits_eq_zero _ a (hkeys a ha),
        shiftRight_keyBits_eq_zero _ b (hkeys b hb)]
    subst hres
    refine ⟨by rw [List.take_left' hlen]; exact hs, ?_⟩
    intro i hi
    rw [List.getD_append _ _ _ _ (by omega), List.getD_append _ _ _ _ (by omega),
      List.getD_eq_getElem _ _ (by omega), List.getD_eq_getElem _ _ (by omega)]
    exact List.pairwise_iff_getElem.mp hs i (i + 1) (by omega) (by omega) (by omega)

theorem VortexSort_Sort_sorted_witness :
    VortexSort_Sort
      { itemSize := 1, itemsPerSort := 8, blockSizePower := 2, digitBits := 2, threshold := 2 }
      { capacity := 16, blockCount := 2 } [5, 1, 4, 1, 5, 9, 2, 6] [5, 1, 4, 1, 5, 9, 2, 6] 8
      = Except.ok ([1, 1, 2, 4, 5, 5, 6, 9], { capacity := 16, blockCount := 2 }) ∧
    (List.take 8 [1, 1, 2, 4, 5, 5, 6, 9]).Sorted (· ≤ ·) :=
  ⟨rfl, (VortexSort_Sort_sorted
    { itemSize := 1, itemsPerSort := 8, blockSizePower := 2, digitBits := 2, threshold := 2 }
    { capacity := 16, blockCount := 2 } [5, 1, 4, 1, 5, 9, 2, 6] [5, 1, 4, 1, 5, 9, 2, 6] 8
    [1, 1, 2, 4, 5, 5, 6, 9] { capacity := 16, blockCount := 2 }
    (by decide) (by decide) rfl).1⟩

/-- C2. Whenever the modelled `Sort(inputBuf, outputBuf, n)` returns
successfully, the multiset of the first `n` items of the output equals the
multiset of the first `n` items of the input, and the output buffer past
`n` is untouched. -/
theorem VortexSort_Sort_multiset (cfg : SortConfig) (pool : BlockPool)
    (inputBuf outputBuf : List Nat) (n : Nat) (res : List Nat) (pool1 : BlockPool)
    (hn : n ≤ inputBuf.length)
    (h : VortexSort_Sort cfg pool inputBuf outputBuf n = Except.ok (res, pool1)) :
    ((res.take n : List Nat) : Multiset Nat) = ((inputBuf.take n : List Nat) : Multiset Nat) ∧
    res.drop n = outputBuf.drop n := by
  rcases VortexSort_Sort_ok cfg pool inputBuf outputBuf n res pool1 h with ⟨h0, hres⟩ | ⟨out, hrun, hres⟩
  · subst h0
    subst hres
    simp
  · obtain ⟨hperm, _⟩ := sortBucket_spec cfg cfg.maxDepth 0 pool _ out pool1 hrun
    have hlen : out.length = n := by
      rw [hperm.length_eq, List.length_take]
      omega
    subst hres
    rw [List.take_left' hlen, List.drop_left' hlen]
    exact ⟨Multiset.coe_eq_coe.mpr hperm, rfl⟩

theorem VortexSort_Sort_multiset_witness :
    VortexSort_Sort
      { itemSize := 2, itemsPerSort := 8, blockSizePower := 3, digitBits := 3, threshold := 1 }
      { capacity := 64, blockCount := 0 } [500, 1, 40000, 1, 65535, 9] [0, 0, 0, 0, 0, 0, 7] 5
      = Except.ok ([1, 1, 500, 40000, 65535, 0, 7], { capacity := 64, blockCount := 0 }) ∧
    ((List.take 5 [1, 1, 500, 40000, 65535, 0, 7] : List Nat) : Multiset Nat)
      = ((List.take 5 [500, 1, 40000, 1, 65535, 9] : List Nat) : Multiset Nat) :=
  ⟨rfl, (VortexSort_Sort_multiset
    { itemSize := 2, itemsPerSort := 8, blockSizePower := 3, digitBits := 3, threshold := 1 }
    { capacity := 64, blockCount := 0 } [500, 1, 40000, 1, 65535, 9] [0, 0, 0, 0, 0, 0, 7] 5
    [1, 1, 500, 40000, 65535, 0, 7] { capacity := 64, blockCount := 0 }
    (by decide) rfl).1⟩

end Vortex
